import Mathlib

/-!
Verification of `hellwig.py` (Hellwig's method of the capacity of
information bearers).

The shallow embedding below translates the program's functions into Lean:

* `hellwig_singular` — scores one combination (source lines 78–86);
* `combination` — `itertools.combinations` over the variable list
  (source lines 88–89);
* `maxBySnd` — Python's `max(·, key=itemgetter(1))`, which keeps the
  first encountered element on ties and fails on an empty sequence;
* `hellwig` — the two-level search over per-size groups (lines 69–76);
* `main` — the driver's control flow (lines 50–67): the `min` check,
  the per-variable correlation loop, the size range
  `range(min, len+1 if max < 1 else max)` and the final search.

Numeric values are modelled as rationals.  The pandas correlation
routine is an external library call; `main` receives it as a
parameter `corrF`, and the NaN-producing behaviour of `Series.corr`
on short series is modelled separately by `seriesCorr`.
-/

abbrev Var := String

/-- The denominator written as the spec states it: the sum over the
combination of the absolute correlations with the reference variable. -/
def spec_D (M : Var → Var → ℚ) (vref : Var) (c : List Var) : ℚ :=
  (c.map fun v => |M vref v|).sum

/-- One variable's individual capacity, as the spec states it. -/
def spec_h (M : Var → Var → ℚ) (yx : Var → ℚ) (vref : Var) (c : List Var) (v : Var) : ℚ :=
  (yx v) ^ 2 / spec_D M vref c

/-- The total capacity, as the spec states it: the sum of individual
capacities over the combination. -/
def spec_H (M : Var → Var → ℚ) (yx : Var → ℚ) (vref : Var) (c : List Var) : ℚ :=
  (c.map (spec_h M yx vref c)).sum

/-- `hellwig_singular` (source lines 78–86): two accumulation loops,
first the denominator `denominator += abs(M[c[0]][var])`, then the
capacity `h += yx[var]**2 / denominator`; returns the pair
`(var_combination, h)`.  When the combination is empty neither loop
body runs, so `c[0]` is never evaluated; `headD` reproduces that. -/
def hellwig_singular (M : Var → Var → ℚ) (yx : Var → ℚ) (c : List Var) :
    List Var × ℚ :=
  let denominator := c.foldl (fun acc v => acc + |M (c.headD "") v|) 0
  let h := c.foldl (fun acc v => acc + (yx v) ^ 2 / denominator) 0
  (c, h)

theorem foldl_add_map_sum (f : Var → ℚ) :
    ∀ (l : List Var) (a : ℚ),
      l.foldl (fun acc v => acc + f v) a = a + (l.map f).sum := by
  intro l
  induction l with
  | nil => intro a; simp
  | cons x xs ih =>
    intro a
    simp only [List.foldl_cons, List.map_cons, List.sum_cons, ih]
    ring

theorem hellwig_singular_eq_spec_H (M : Var → Var → ℚ) (yx : Var → ℚ)
    (v₁ : Var) (vs : List Var) :
    hellwig_singular M yx (v₁ :: vs) = (v₁ :: vs, spec_H M yx v₁ (v₁ :: vs)) := by
  unfold hellwig_singular spec_H spec_h spec_D
  simp only [List.headD_cons]
  rw [foldl_add_map_sum (fun v => |M v₁ v|) (v₁ :: vs) 0]
  rw [foldl_add_map_sum
    (fun v => (yx v) ^ 2 / (0 + ((v₁ :: vs).map fun v => |M v₁ v|).sum)) (v₁ :: vs) 0]
  simp

/-- C2: for every combination `[v_1, ..., v_k]` the scorer returns the
combination together with the total capacity `H(C) = Σ_{v in C} h(v)`,
where `h(v) = DependentCorrelationVector[v]^2 / D` and
`D = Σ_{v in C} |corr(v_1, v)|` with `v_1` the reference variable. -/
theorem hellwig_singular_computes_spec_formula (M : Var → Var → ℚ) (yx : Var → ℚ)
    (v₁ : Var) (vs : List Var) :
    hellwig_singular M yx (v₁ :: vs) = (v₁ :: vs, spec_H M yx v₁ (v₁ :: vs)) :=
  hellwig_singular_eq_spec_H M yx v₁ vs

/-- C6: for a single-variable combination `{v}` with `corr(v,v) = 1`,
the total capacity equals the squared dependent correlation of `v`. -/
theorem single_variable_capacity (M : Var → Var → ℚ) (yx : Var → ℚ) (v : Var)
    (h : M v v = 1) :
    (hellwig_singular M yx [v]).2 = (yx v) ^ 2 := by
  simp [hellwig_singular, h]

def cM1 : Var → Var → ℚ := fun _ _ => 1

def cyx1 : Var → ℚ := fun _ => 1 / 2

theorem single_variable_capacity_witness :
    (hellwig_singular cM1 cyx1 ["a"]).2 = (cyx1 "a") ^ 2 :=
  single_variable_capacity cM1 cyx1 "a" rfl

/-- `combination` (source lines 88–89): `itertools.combinations(iterable, n)`.
`itertools.combinations` yields all length-`n` subsequences of the input,
each keeping the input order, enumerated in lexicographic order of
positions: every tuple that keeps the first element (continuing with a
combination of the rest) precedes every tuple that omits it. -/
def combination : List Var → Nat → List (List Var)
  | _, 0 => [[]]
  | [], _ + 1 => []
  | x :: xs, n + 1 => (combination xs n).map (x :: ·) ++ combination xs (n + 1)

theorem combination_eq_reverse_sublistsLen :
    ∀ (l : List Var) (n : Nat), combination l n = (l.sublistsLen n).reverse := by
  intro l
  induction l with
  | nil =>
    intro n
    cases n with
    | zero => simp [combination, List.sublistsLen_zero]
    | succ n => simp [combination, List.sublistsLen_succ_nil]
  | cons x xs ih =>
    intro n
    cases n with
    | zero => simp [combination, List.sublistsLen_zero]
    | succ n =>
      simp only [combination, ih, List.sublistsLen_succ_cons, List.reverse_append,
        List.map_reverse]

/-- C7: for a duplicate-free pool of size `N` and any `1 ≤ k ≤ N`, the
generator yields exactly `C(N, k)` subsets, each of size `k`, each a
subsequence of the pool (so ordered by the pool's canonical order with
no variable repeated), with no duplicate subset; enumeration order is
that of the pure function `combination`, hence deterministic. -/
theorem combination_enumeration (pool : List Var) (k : Nat)
    (hnd : pool.Nodup) (hk1 : 1 ≤ k) (hk2 : k ≤ pool.length) :
    (combination pool k).length = Nat.choose pool.length k ∧
    (∀ c ∈ combination pool k, c.length = k ∧ c.Sublist pool ∧ c.Nodup) ∧
    (combination pool k).Nodup := by
  rw [combination_eq_reverse_sublistsLen]
  refine ⟨?_, ?_, ?_⟩
  · rw [List.length_reverse, List.length_sublistsLen]
  · intro c hc
    rw [List.mem_reverse, List.mem_sublistsLen] at hc
    exact ⟨hc.2, hc.1, hc.1.nodup hnd⟩
  · exact List.nodup_reverse.mpr (List.nodup_sublistsLen k hnd)

theorem combination_enumeration_witness :
    (combination ["a", "b", "c"] 2).length =
      Nat.choose (["a", "b", "c"] : List Var).length 2 ∧
    (∀ c ∈ combination ["a", "b", "c"] 2,
      c.length = 2 ∧ c.Sublist ["a", "b", "c"] ∧ c.Nodup) ∧
    (combination ["a", "b", "c"] 2).Nodup :=
  combination_enumeration ["a", "b", "c"] 2 (by decide) (by decide) (by decide)

/-- One comparison step of Python's `max(seq, key=itemgetter(1))`: the
incumbent `p` is replaced only when the challenger's key is strictly
greater, so the first of several maximal elements is kept. -/
def pymax2 {α : Type} (p q : α × ℚ) : α × ℚ :=
  if p.2 < q.2 then q else p

/-- Python's `max(seq, key=itemgetter(1))`: `none` models the
`ValueError` raised on an empty sequence. -/
def maxBySnd {α : Type} : List (α × ℚ) → Option (α × ℚ)
  | [] => none
  | x :: xs => some (xs.foldl pymax2 x)

theorem pymax2_assoc {α : Type} (a b c : α × ℚ) :
    pymax2 (pymax2 a b) c = pymax2 a (pymax2 b c) := by
  unfold pymax2
  split_ifs <;> first | rfl | (exfalso; linarith)

theorem foldl_pymax2_cons {α : Type} :
    ∀ (ys : List (α × ℚ)) (m y : α × ℚ),
      (y :: ys).foldl pymax2 m = pymax2 m (ys.foldl pymax2 y) := by
  intro ys
  induction ys with
  | nil => intro m y; rfl
  | cons y' ys ih =>
    intro m y
    show (y' :: ys).foldl pymax2 (pymax2 m y) = pymax2 m ((y' :: ys).foldl pymax2 y)
    rw [ih (pymax2 m y) y', show (y' :: ys).foldl pymax2 y = pymax2 y (ys.foldl pymax2 y') from ih y y', ← pymax2_assoc]

/-- The fold underlying `maxBySnd` returns either the seed (when nothing
beats it strictly) or the first element that is strictly greater than
everything before it and at least everything after it. -/
theorem foldl_pymax2_first {α : Type} :
    ∀ (xs : List (α × ℚ)) (b : α × ℚ),
      (xs.foldl pymax2 b = b ∧ ∀ y ∈ xs, y.2 ≤ b.2) ∨
      (∃ l₁ l₂, xs = l₁ ++ (xs.foldl pymax2 b) :: l₂ ∧
        b.2 < (xs.foldl pymax2 b).2 ∧
        (∀ y ∈ l₁, y.2 < (xs.foldl pymax2 b).2) ∧
        (∀ y ∈ l₂, y.2 ≤ (xs.foldl pymax2 b).2)) := by
  intro xs
  induction xs with
  | nil => intro b; exact Or.inl ⟨rfl, by simp⟩
  | cons c xs ih =>
    intro b
    by_cases hc : b.2 < c.2
    · have hstep : (c :: xs).foldl pymax2 b = xs.foldl pymax2 c := by
        simp [List.foldl_cons, pymax2, hc]
      rcases ih c with ⟨heq, hall⟩ | ⟨l₁, l₂, heq, hlt, h₁, h₂⟩
      · refine Or.inr ⟨[], xs, ?_, ?_, by simp, ?_⟩
        · rw [hstep, heq]; rfl
        · rw [hstep, heq]; exact hc
        · intro y hy; rw [hstep, heq]; exact hall y hy
      · refine Or.inr ⟨c :: l₁, l₂, ?_, ?_, ?_, ?_⟩
        · rw [hstep]; simpa using congrArg (c :: ·) heq
        · rw [hstep]; exact lt_trans hc hlt
        · intro y hy
          rw [hstep]
          rcases List.mem_cons.mp hy with rfl | hy'
          · exact hlt
          · exact h₁ y hy'
        · intro y hy; rw [hstep]; exact h₂ y hy
    · have hstep : (c :: xs).foldl pymax2 b = xs.foldl pymax2 b := by
        simp [List.foldl_cons, pymax2, hc]
      rcases ih b with ⟨heq, hall⟩ | ⟨l₁, l₂, heq, hlt, h₁, h₂⟩
      · refine Or.inl ⟨by rw [hstep, heq], ?_⟩
        intro y hy
        rcases List.mem_cons.mp hy with rfl | hy'
        · exact le_of_not_lt hc
        · exact hall y hy'
      · refine Or.inr ⟨c :: l₁, l₂, ?_, ?_, ?_, ?_⟩
        · rw [hstep]; simpa using congrArg (c :: ·) heq
        · rw [hstep]; exact hlt
        · intro y hy
          rw [hstep]
          rcases List.mem_cons.mp hy with rfl | hy'
          · exact lt_of_le_of_lt (le_of_not_lt hc) hlt
          · exact h₁ y hy'
        · intro y hy; rw [hstep]; exact h₂ y hy

/-- `maxBySnd` returns the first element attaining the maximal key:
everything strictly before it in the list is strictly smaller,
everything after it is no greater. -/
theorem maxBySnd_first_max {α : Type} (l : List (α × ℚ)) (x : α × ℚ)
    (h : maxBySnd l = some x) :
    ∃ l₁ l₂, l = l₁ ++ x :: l₂ ∧ (∀ y ∈ l₁, y.2 < x.2) ∧
      (∀ y ∈ l₂, y.2 ≤ x.2) := by
  cases l with
  | nil => exact absurd h (by simp [maxBySnd])
  | cons a xs =>
    have hx : xs.foldl pymax2 a = x := by
      simpa [maxBySnd] using h
    rcases foldl_pymax2_first xs a with ⟨heq, hall⟩ | ⟨l₁, l₂, heq, hlt, h₁, h₂⟩
    · refine ⟨[], xs, ?_, by simp, ?_⟩
      · rw [← hx, heq]; rfl
      · intro y hy; rw [← hx, heq]; exact hall y hy
    · refine ⟨a :: l₁, l₂, ?_, ?_, ?_⟩
      · rw [← hx]; simpa using congrArg (a :: ·) heq
      · intro y hy
        rw [← hx]
        rcases List.mem_cons.mp hy with rfl | hy'
        · rw [hx] at hlt ⊢; exact hlt
        · rw [hx] at h₁ ⊢; exact h₁ y hy'
      · intro y hy; rw [← hx]; rw [hx] at h₂ ⊢; exact h₂ y hy

def optCombine {α : Type} : Option (α × ℚ) → Option (α × ℚ) → Option (α × ℚ)
  | none, o => o
  | some b, none => some b
  | some b, some c => some (pymax2 b c)

theorem maxBySnd_append {α : Type} (l₁ l₂ : List (α × ℚ)) :
    maxBySnd (l₁ ++ l₂) = optCombine (maxBySnd l₁) (maxBySnd l₂) := by
  cases l₁ with
  | nil => cases l₂ <;> rfl
  | cons x xs =>
    cases l₂ with
    | nil => simp [maxBySnd, optCombine]
    | cons y ys =>
      show some (((xs ++ y :: ys)).foldl pymax2 x) = _
      rw [List.foldl_append, foldl_pymax2_cons]
      rfl

theorem maxBySnd_of_ne_nil {α : Type} (l : List (α × ℚ)) (h : l ≠ []) :
    ∃ x, maxBySnd l = some x := by
  cases l with
  | nil => exact absurd rfl h
  | cons x xs => exact ⟨xs.foldl pymax2 x, rfl⟩

/-- Sequencing of fallible steps, as performed by the `for` loop in
`hellwig` over the per-size groups: the first failing step (an empty
group handed to `max`) aborts the whole run. -/
def mapMOpt {α β : Type} (f : α → Option β) : List α → Option (List β)
  | [] => some []
  | x :: xs =>
    match f x, mapMOpt f xs with
    | some y, some ys => some (y :: ys)
    | _, _ => none

theorem mapMOpt_map {α β γ : Type} (f : β → Option γ) (g : α → β) :
    ∀ l : List α, mapMOpt f (l.map g) = mapMOpt (fun x => f (g x)) l := by
  intro l
  induction l with
  | nil => rfl
  | cons x xs ih => simp [mapMOpt, ih]

/-- The two-level selection (per-group `max`, then `max` of the group
bests) equals the single first-wins `max` over the concatenation of the
groups, provided every group is non-empty. -/
theorem mapMOpt_maxBySnd_join {α : Type} :
    ∀ (ss : List (List (α × ℚ))), (∀ s ∈ ss, s ≠ []) →
      ∃ bests, mapMOpt maxBySnd ss = some bests ∧
        maxBySnd bests = maxBySnd ss.flatten := by
  intro ss
  induction ss with
  | nil => intro _; exact ⟨[], rfl, rfl⟩
  | cons s ss ih =>
    intro hne
    obtain ⟨b, hb⟩ := maxBySnd_of_ne_nil s (hne s (List.mem_cons_self s ss))
    obtain ⟨bests, h1, h2⟩ := ih fun t ht => hne t (List.mem_cons_of_mem s ht)
    refine ⟨b :: bests, ?_, ?_⟩
    · simp [mapMOpt, hb, h1]
    · have : maxBySnd (b :: bests) = maxBySnd ([b] ++ bests) := by simp
      rw [this, maxBySnd_append, h2, List.flatten_cons, maxBySnd_append, hb]
      rfl

/-- The scored list of one per-size group: line 72 applies
`hellwig_singular` to every combination of the group. -/
def scoreGroup (M : Var → Var → ℚ) (yx : Var → ℚ) (group : List (List Var)) :
    List (List Var × ℚ) :=
  group.map (hellwig_singular M yx)

/-- `hellwig` (source lines 69–76): for each per-size group, score every
combination and take `max(·, key=itemgetter(1))`; collect the per-group
bests and take the same `max` over them.  Python's `max` raises
`ValueError` on an empty sequence (an empty group, or no groups at
all); that failure is `none`. -/
def hellwig (M : Var → Var → ℚ) (yx : Var → ℚ)
    (groups : List (List (List Var))) : Option (List Var × ℚ) :=
  match mapMOpt (fun g => maxBySnd (scoreGroup M yx g)) groups with
  | some bests => maxBySnd bests
  | none => none

/-- C8: over non-empty per-size enumerations, `hellwig` returns a scored
combination whose capacity is at least that of every evaluated
combination across all sizes; in the concatenated evaluation order
(ascending sizes, enumeration order within a size) every element before
the winner scores strictly less and every element after it scores no
more, so on ties the first-encountered combination wins, both within a
size and across sizes. -/
theorem hellwig_first_encountered_max (M : Var → Var → ℚ) (yx : Var → ℚ)
    (groups : List (List (List Var))) (hne : groups ≠ [])
    (hg : ∀ g ∈ groups, g ≠ []) :
    ∃ best l₁ l₂, hellwig M yx groups = some best ∧
      (groups.map (scoreGroup M yx)).flatten = l₁ ++ best :: l₂ ∧
      (∀ y ∈ l₁, y.2 < best.2) ∧ (∀ y ∈ l₂, y.2 ≤ best.2) := by
  have hss : ∀ s ∈ groups.map (scoreGroup M yx), s ≠ [] := by
    intro s hs
    obtain ⟨g, hgmem, rfl⟩ := List.mem_map.mp hs
    intro habs
    exact hg g hgmem (List.map_eq_nil_iff.mp habs)
  obtain ⟨bests, h1, h2⟩ := mapMOpt_maxBySnd_join (groups.map (scoreGroup M yx)) hss
  have hflat : (groups.map (scoreGroup M yx)).flatten ≠ [] := by
    cases groups with
    | nil => exact absurd rfl hne
    | cons g gs =>
      have hgne : g ≠ [] := hg g (List.mem_cons_self g gs)
      cases g with
      | nil => exact absurd rfl hgne
      | cons c cs => simp [scoreGroup]
  obtain ⟨best, hbest⟩ := maxBySnd_of_ne_nil _ hflat
  refine ⟨best, ?_⟩
  have hrun : hellwig M yx groups = some best := by
    unfold hellwig
    rw [mapMOpt_map maxBySnd (scoreGroup M yx) groups] at h1
    rw [h1]
    show maxBySnd bests = some best
    rw [h2, hbest]
  obtain ⟨l₁, l₂, hdec, hlt, hle⟩ := maxBySnd_first_max _ best hbest
  exact ⟨l₁, l₂, hrun, hdec, hlt, hle⟩

def cMw : Var → Var → ℚ := fun _ _ => 1

def cyxw : Var → ℚ := fun _ => 3 / 5

theorem hellwig_first_encountered_max_witness :
    ∃ best l₁ l₂,
      hellwig cMw cyxw [[["a"], ["b"]], [["a", "b"]]] = some best ∧
      (([[["a"], ["b"]], [["a", "b"]]] :
        List (List (List Var))).map (scoreGroup cMw cyxw)).flatten =
        l₁ ++ best :: l₂ ∧
      (∀ y ∈ l₁, y.2 < best.2) ∧ (∀ y ∈ l₂, y.2 ≤ best.2) :=
  hellwig_first_encountered_max cMw cyxw [[["a"], ["b"]], [["a", "b"]]]
    (by decide) (by decide)

/-- C3 (amended): a combination whose reference denominator is zero is
not excluded from consideration — `hellwig_singular` contains no
degeneracy check, scores it unconditionally, and its scored pair
participates in the per-size maximum like every other combination. -/
theorem degenerate_combination_not_excluded (M : Var → Var → ℚ) (yx : Var → ℚ)
    (g : List (List Var)) (c : List Var) (hc : c ∈ g)
    (hD : spec_D M (c.headD "") c = 0) :
    hellwig_singular M yx c ∈ scoreGroup M yx g :=
  List.mem_map_of_mem _ hc

def cM0 : Var → Var → ℚ := fun _ _ => 0

def cyx0 : Var → ℚ := fun _ => 1 / 2

theorem degenerate_combination_not_excluded_witness :
    hellwig_singular cM0 cyx0 ["a"] ∈ scoreGroup cM0 cyx0 [["a"], ["b"]] :=
  degenerate_combination_not_excluded cM0 cyx0 [["a"], ["b"]] ["a"]
    (by decide) (by simp [spec_D, cM0])

/-- C3 counterexample: with every correlation zero, the combination
`["a"]` has reference denominator `0`, yet the search does not exclude
it — it is scored and returned as the overall best result. -/
theorem degenerate_combination_returned_best :
    spec_D cM0 "a" ["a"] = 0 ∧
    (hellwig cM0 cyx0 [[["a"]]]).map Prod.fst = some ["a"] := by
  constructor
  · simp [spec_D, cM0]
  · rfl

/-- C10: for a non-empty combination scored against a matrix with unit
diagonal, the reference denominator is at least 1, so the scorer's
division never has a zero divisor, and the returned total capacity lies
between 0 and the sum of the squared dependent correlations. -/
theorem capacity_nonneg_and_bounded (M : Var → Var → ℚ) (yx : Var → ℚ)
    (v : Var) (vs : List Var) (hdiag : ∀ w, M w w = 1) :
    1 ≤ spec_D M v (v :: vs) ∧
    0 ≤ (hellwig_singular M yx (v :: vs)).2 ∧
    (hellwig_singular M yx (v :: vs)).2 ≤
      ((v :: vs).map fun u => (yx u) ^ 2).sum := by
  have hD : 1 ≤ spec_D M v (v :: vs) := by
    unfold spec_D
    simp only [List.map_cons, List.sum_cons, hdiag v, abs_one]
    have hnn : 0 ≤ (vs.map fun w => |M v w|).sum := by
      apply List.sum_nonneg
      intro x hx
      obtain ⟨w, _, rfl⟩ := List.mem_map.mp hx
      exact abs_nonneg _
    linarith
  have hsnd : (hellwig_singular M yx (v :: vs)).2 = spec_H M yx v (v :: vs) := by
    rw [hellwig_singular_eq_spec_H]
  refine ⟨hD, ?_, ?_⟩
  · rw [hsnd]
    apply List.sum_nonneg
    intro x hx
    obtain ⟨w, _, rfl⟩ := List.mem_map.mp hx
    exact div_nonneg (sq_nonneg _) (le_trans zero_le_one hD)
  · rw [hsnd]
    unfold spec_H
    apply List.sum_le_sum
    intro u _
    exact div_le_self (sq_nonneg _) hD

theorem capacity_nonneg_and_bounded_witness :
    1 ≤ spec_D cM1 "a" ["a", "b"] ∧
    0 ≤ (hellwig_singular cM1 cyx1 ["a", "b"]).2 ∧
    (hellwig_singular cM1 cyx1 ["a", "b"]).2 ≤
      ((["a", "b"] : List Var).map fun u => (cyx1 u) ^ 2).sum :=
  capacity_nonneg_and_bounded cM1 cyx1 "a" ["b"] fun _ => rfl

/-- Python's `range(a, b)`: the integers from `a` up to `b - 1`. -/
def intRange (a b : Int) : List Int :=
  (List.range (b - a).toNat).map fun i => a + (i : Int)

/-- The subset sizes the driver enumerates (source line 64):
`range(min, len(independent_vars)+1 if max < 1 else max)`. -/
def sizesEvaluated (minv maxv : Int) (n : Nat) : List Int :=
  intRange minv (if maxv < 1 then (n : Int) + 1 else maxv)

/-- C1: failing input for the claim — with 2 candidate variables and an
explicitly supplied `max = 2 ≥ 1`, the driver enumerates only size 1,
never scoring combinations of size `max` itself, while with the default
`max = -1` it enumerates `[1, 2]`.  The claim (and the program's own
help text, which calls `max` "The largest number of items in a
combination") requires `[1, 2]` in both cases. -/
theorem sizes_exclude_explicit_max :
    sizesEvaluated 1 2 2 = [1] ∧ sizesEvaluated 1 (-1) 2 = [1, 2] := by
  constructor <;> rfl

/-- The failure modes of `main`: the explicit `min` check of line 51,
Python's `KeyError` for a missing dependent column, Python's
`ValueError` on `max` of an empty sequence, and the spec's
`InsufficientDataError` (never produced by the program — see C9). -/
inductive RunError where
  | configError (msg : String)
  | keyError (v : Var)
  | emptySequenceError
  | insufficientData (v : Var)
deriving DecidableEq

/-- The tail of the driver: printing the result of a successful search,
or Python's `ValueError` when `max` was handed an empty sequence. -/
def finalize : Option (List Var × ℚ) → Except RunError (List Var × ℚ)
  | some best => .ok best
  | none => .error .emptySequenceError

theorem finalize_ne_configError (o : Option (List Var × ℚ)) (msg : String) :
    finalize o ≠ Except.error (.configError msg) := by
  cases o <;> simp [finalize]

/-- `main` (source lines 50–67).  External collaborators are
parameters: `corrF` models the pandas correlation of two numeric
columns (`df[y].corr(df[x])` on line 62 and the entries of
`independent_df.corr()` on line 66); `cols` holds the csv columns as
loaded.  The body follows the source order: the `min < 1` check, the
`KeyError` Python would raise for a missing dependent column, the
default candidate pool, the size range of line 64, and the search;
`emptySequenceError` is Python's `ValueError` from `max` of an empty
sequence. -/
def main_run (corrF : List ℚ → List ℚ → ℚ) (cols : List (Var × List ℚ))
    (depVar : Var) (indepVars : List Var) (minv maxv : Int) :
    Except RunError (List Var × ℚ) :=
  if minv < 1 then .error (.configError "min cannot be smaller than 1")
  else
    match cols.lookup depVar with
    | none => .error (.keyError depVar)
    | some depCol =>
      let indepCols := cols.filter fun p => p.1 ≠ depVar
      let vars := if indepVars.isEmpty then indepCols.map Prod.fst else indepVars
      let yx : Var → ℚ := fun v => corrF depCol ((cols.lookup v).getD [])
      let M : Var → Var → ℚ := fun v w =>
        corrF ((indepCols.lookup v).getD []) ((indepCols.lookup w).getD [])
      let groups := (sizesEvaluated minv maxv vars.length).map fun k =>
        combination vars k.toNat
      finalize (hellwig M yx groups)

/-- C5: `min < 1` is rejected before the dataset is read or touched —
the run ends with the configuration error, uniformly in the dataset,
the correlation routine and every other argument. -/
theorem min_check_precedes_dataset (corrF : List ℚ → List ℚ → ℚ)
    (cols : List (Var × List ℚ)) (depVar : Var) (indepVars : List Var)
    (minv maxv : Int) (h : minv < 1) :
    main_run corrF cols depVar indepVars minv maxv =
      .error (.configError "min cannot be smaller than 1") := by
  simp [main_run, h]

def cCorrF : List ℚ → List ℚ → ℚ := fun _ _ => 1 / 2

def cCols : List (Var × List ℚ) := [("y", [1, 2]), ("a", [1, 2]), ("b", [2, 1])]

theorem min_check_precedes_dataset_witness :
    main_run cCorrF cCols "y" [] 0 5 =
      .error (.configError "min cannot be smaller than 1") :=
  min_check_precedes_dataset cCorrF cCols "y" [] 0 5 (by decide)

/-- C4 counterexample: with candidate pool `{a, b}` of size 2 and
`max = 3` exceeding the pool size, the run raises no configuration
error at all — it completes normally (sizes 1 and 2 are enumerated and
a best combination is printed). -/
theorem max_exceeding_pool_completes :
    main_run cCorrF cCols "y" [] 1 3 = .ok (["a"], 1 / 2) := by
  have habs : |(1 : ℚ) / 2| = 1 / 2 := abs_of_pos (by norm_num)
  norm_num [habs, main_run, hellwig, mapMOpt, scoreGroup, hellwig_singular,
    maxBySnd, pymax2, combination, sizesEvaluated, intRange, finalize, cCols,
    cCorrF, List.lookup, List.range, List.range.loop]

/-- C4 (amended): the only size-bound validation the program performs
is the `min < 1` check — a run ends with a configuration error exactly
when `min < 1`.  Neither `min > max` nor `max` exceeding the pool size
is detected: the run proceeds past the correlation computation,
completing normally for `max = pool size + 1` and failing later with
Python's empty-sequence `ValueError` when some enumerated size has no
combinations. -/
theorem config_error_iff_min_lt_one (corrF : List ℚ → List ℚ → ℚ)
    (cols : List (Var × List ℚ)) (depVar : Var) (indepVars : List Var)
    (minv maxv : Int) :
    (∃ msg, main_run corrF cols depVar indepVars minv maxv =
      .error (.configError msg)) ↔ minv < 1 := by
  constructor
  · rintro ⟨msg, hmsg⟩
    by_contra hge
    rw [main_run, if_neg hge] at hmsg
    split at hmsg
    · exact absurd hmsg (by simp)
    · exact finalize_ne_configError _ msg hmsg
  · intro h
    exact ⟨"min cannot be smaller than 1", by simp [main_run, h]⟩

theorem config_error_iff_min_lt_one_witness :
    ∃ msg, main_run cCorrF cCols "y" [] 0 5 = .error (.configError msg) :=
  (config_error_iff_min_lt_one cCorrF cCols "y" [] 0 5).mpr (by decide)

/-- The row pairs on which a pairwise correlation is computed: rows
where either series has a missing value are dropped, as pandas does. -/
def validPairs (xs ys : List (Option ℚ)) : List (ℚ × ℚ) :=
  (xs.zip ys).filterMap fun p =>
    match p with
    | (some a, some b) => some (a, b)
    | _ => none

/-- Models the external `pandas.Series.corr` call of line 62 at the
level of detail line 62 depends on: missing rows are dropped, and with
fewer than two remaining pairs the Pearson coefficient is undefined and
pandas returns `NaN` (modelled `none`) — it raises no exception.  The
numeric value on two or more pairs is the abstract parameter `pearson`
(its formula involves square roots and plays no part in the claims
about this loop). -/
def seriesCorr (pearson : List (ℚ × ℚ) → Option ℚ) (xs ys : List (Option ℚ)) :
    Option ℚ :=
  if (validPairs xs ys).length < 2 then none else pearson (validPairs xs ys)

/-- The per-variable correlation loop of source lines 60–62
(`yx_corrs[var] = df[dependent_var].corr(df[var])`).  The loop body is
a pure pandas call that raises nothing, so the step always returns
`.ok`; typing the result in `Except RunError` makes the absence of any
error path explicit. -/
def computeYxCorrs (pearson : List (ℚ × ℚ) → Option ℚ)
    (depCol : List (Option ℚ)) (colOf : Var → List (Option ℚ))
    (vars : List Var) : Except RunError (List (Var × Option ℚ)) :=
  .ok (vars.map fun v => (v, seriesCorr pearson depCol (colOf v)))

/-- C9 (amended): a series with fewer than two valid observations gets
correlation `NaN` (modelled `none`); the correlation loop returns
normally carrying that `NaN` entry, and never fails with an
`InsufficientDataError` — the program raises no such error. -/
theorem short_series_yields_nan (pearson : List (ℚ × ℚ) → Option ℚ)
    (depCol : List (Option ℚ)) (colOf : Var → List (Option ℚ))
    (vars : List Var) (v : Var) (hv : v ∈ vars)
    (hshort : (validPairs depCol (colOf v)).length < 2) :
    ∃ res, computeYxCorrs pearson depCol colOf vars = .ok res ∧
      (v, (none : Option ℚ)) ∈ res := by
  refine ⟨_, rfl, ?_⟩
  have hnan : seriesCorr pearson depCol (colOf v) = none := by
    simp [seriesCorr, hshort]
  exact List.mem_map.mpr ⟨v, hv, by simp [hnan]⟩

def cPearson : List (ℚ × ℚ) → Option ℚ := fun _ => some 0

def cDepCol : List (Option ℚ) := [some 1, some 2, some 3]

def cShortCols : Var → List (Option ℚ) := fun _ => [some 5, none, none]

/-- C9 counterexample: the column `"a"` has a single valid observation,
yet the correlation loop returns `.ok` with a `NaN` correlation for it
instead of failing with an `InsufficientDataError`. -/
theorem short_series_no_error :
    computeYxCorrs cPearson cDepCol cShortCols ["a"] = .ok [("a", none)] :=
  rfl

theorem short_series_yields_nan_witness :
    ∃ res, computeYxCorrs cPearson cDepCol cShortCols ["a", "b"] = .ok res ∧
      (("a" : Var), (none : Option ℚ)) ∈ res :=
  short_series_yields_nan cPearson cDepCol cShortCols ["a", "b"] "a"
    (by decide) (by decide)
